import Mathlib

/-!
Verification of the pynn/learning neural-network toolkit.

Shallow embedding of the repository code over exact rationals:
- vectors are lists of rationals, matrices are lists of rows;
- transcendental primitives (numpy.exp, numpy.log) are passed as function
  parameters, with the properties the code relies on stated as hypotheses;
- an IEEE non-finite value (inf or nan) produced by dividing a finite float
  by zero is modelled by the value none of an Option type;
- Python exceptions are modelled by the branch structure of the embedded
  functions (a try/except pair becomes an if on the raising condition).
-/

namespace PynnProof

/-! ## learning/calculate.py -/

/-- Embeds protvecdiv from learning/calculate.py.  The numpy fast path
(vectorized division under errstate divide=raise, invalid=raise) raises
exactly when some component of vec_b is zero; the except branch then divides
component by component into a zero-initialized result vector, each zero
divisor leaving its component at 0. -/
def protvecdiv (vec_a vec_b : List ℚ) : List ℚ :=
  if vec_b.any (fun b => decide (b = 0)) then
    List.zipWith (fun a b => if b = 0 then 0 else a / b) vec_a vec_b
  else
    List.zipWith (fun a b => a / b) vec_a vec_b

/-- numpy.max of a vector: the largest component (the source raises on an
empty vector; the claims only use nonempty vectors). -/
def maxList (x : List ℚ) : ℚ :=
  match x with
  | [] => 0
  | a :: t => t.foldl max a

/-- Embeds softmax from learning/calculate.py, with numpy.exp passed as the
function parameter e.  The maximum of the input vector is subtracted from
every component before e is applied, exactly as the source does with
numpy.exp(x - numpy.max(x)); the result is then divided by its sum. -/
def softmaxWith (e : ℚ → ℚ) (x : List ℚ) : List ℚ :=
  let m := maxList x
  let ex := x.map (fun v => e (v - m))
  ex.map (fun v => v / ex.sum)

/-- Embeds relu (softplus) from learning/calculate.py.  The parameter e
models numpy.exp on doubles: e v = none when exp(v) overflows to infinity,
otherwise some of the finite value.  The parameter lg models numpy.log on
finite positive doubles (always finite there).  The source computes
out = log(1 + exp(x)), then replaces every component where out is infinity
(which happens exactly when exp overflowed) with the corresponding input
component; Option.getD performs that replacement. -/
def relu (e : ℚ → Option ℚ) (lg : ℚ → ℚ) (x : List ℚ) : List ℚ :=
  let out := x.map (fun v => (e v).map (fun w => lg (1 + w)))
  List.zipWith (fun v o => o.getD v) x out

/-! ## learning/architecture/rbf.py -/

/-- numpy true division of a finite float a by a float b, as used by the
augmented assignment in RBF.activate.  Division by zero does not raise under
default numpy error state; it yields inf (a nonzero) or nan (a zero), both
non-finite, modelled by none. -/
def np_div (a b : ℚ) : Option ℚ :=
  if b = 0 then none else some (a / b)

/-- Embeds RBF.activate from learning/architecture/rbf.py.  The collaborators
absent from src/ are parameters: som_act is the clustering sub-model
activation (SOM, an external collaborator per the spec), g is the gaussian
similarity kernel from learning.architecture.transfer (in floating point it
underflows to exactly 0 for large distances), and perc_act is the output
perceptron activation (learning.architecture.mlp).  With scaling enabled the
source executes: output /= self._total_similarity, plain elementwise numpy
division by the sum of the similarities. -/
def rbf_activate (som_act : List ℚ → List ℚ) (g : ℚ → ℚ)
    (perc_act : List ℚ → List ℚ) (scale_by_similarity : Bool)
    (inputs : List ℚ) : List (Option ℚ) :=
  let similarities := (som_act inputs).map g
  let output := perc_act similarities
  if scale_by_similarity then
    output.map (fun o => np_div o similarities.sum)
  else
    output.map some

/-! ## pynn/transform.py: Perceptron -/

def zeros_matrix (rows cols : ℕ) : List (List ℚ) :=
  List.replicate rows (List.replicate cols 0)

def mat_add (a b : List (List ℚ)) : List (List ℚ) :=
  List.zipWith (List.zipWith (fun x y => x + y)) a b

def mat_scale (c : ℚ) (a : List (List ℚ)) : List (List ℚ) :=
  a.map (fun row => row.map (fun x => c * x))

/-- Outer product inputs[:,None] * deltas from Perceptron.update. -/
def outer (u v : List ℚ) : List (List ℚ) :=
  u.map (fun x => v.map (fun y => x * y))

structure Perceptron where
  learn_rate : ℚ
  momentum_rate : ℚ
  initial_weights_range : ℚ
  bias : Bool
  size : ℕ × ℕ
  weights : List (List ℚ)
  momentums : List (List ℚ)
deriving DecidableEq

/-- Embeds Perceptron.reset from pynn/transform.py.  The call to
numpy.random.random(self._size) is modelled by the parameter rand (the random
matrix drawn by the RNG, entries in [0, 1), shape equal to self._size).
The source rebinds self._weights to (2 * rand - 1) * initial_weights_range
and touches nothing else; in particular self._momentums is left as it is. -/
def perceptron_reset (p : Perceptron) (rand : List (List ℚ)) : Perceptron :=
  { p with weights := rand.map (fun row => row.map (fun r => (2 * r - 1) * p.initial_weights_range)) }

/-- Embeds Perceptron.__init__ from pynn/transform.py: size is (inputs+1,
outputs) with bias else (inputs, outputs); weights are zeros then immediately
reset (redrawn from rand); momentums are zeroed after that reset. -/
def perceptron_new (inputs outputs : ℕ) (bias : Bool)
    (learn_rate momentum_rate initial_weights_range : ℚ)
    (rand : List (List ℚ)) : Perceptron :=
  let size := if bias then (inputs + 1, outputs) else (inputs, outputs)
  let p0 : Perceptron :=
    { learn_rate := learn_rate
      momentum_rate := momentum_rate
      initial_weights_range := initial_weights_range
      bias := bias
      size := size
      weights := zeros_matrix size.1 size.2
      momentums := zeros_matrix size.1 size.2 }
  let p1 := perceptron_reset p0 rand
  { p1 with momentums := zeros_matrix size.1 size.2 }

/-- Embeds Perceptron.update from pynn/transform.py: append the bias input
when configured, form changes as the outer product of inputs and deltas, add
learn_rate * changes + momentum_rate * momentums onto the weights, then store
changes as the new momentum buffer. -/
def perceptron_update (p : Perceptron) (inputs deltas : List ℚ) : Perceptron :=
  let inputs2 := if p.bias then inputs ++ [1] else inputs
  let changes := outer inputs2 deltas
  { p with
    weights := mat_add p.weights
      (mat_add (mat_scale p.learn_rate changes) (mat_scale p.momentum_rate p.momentums))
    momentums := changes }

/-! ## pynn/network.py: layer interface and Network

A layer is embedded as a record of its mutable state (type sigma: the weight
and momentum buffers of transform layers; Unit for stateless transfer layers)
together with the methods the Network calls on it.  get_outputs does not
receive the mutable state: every implementation in the source (the Layer
default returning inputs, SigmoidTransfer and GaussianTransfer returning
fixed derivative functions of the outputs) reads only construction-time
constants, which live in the closure of the field.  get_prev_errors does
receive the state: Perceptron.get_errors reads self._weights. -/

structure BLayer (σ : Type) where
  st : σ
  reset : σ → σ
  activate : σ → List ℚ → List ℚ
  get_prev_errors : σ → List ℚ → List ℚ → List ℚ
  update : σ → List ℚ → List ℚ → List ℚ → σ
  get_outputs : List ℚ → List ℚ → List ℚ

/-- Embeds the backward loop of Network.update (pynn/network.py): the layers
arrive reversed, each paired with its recorded input from the activation
trace.  For each layer the source first computes prev_errors from the layer
as it currently is, then calls layer.update which mutates the weights, then
derives the outputs for the preceding layer via get_outputs.  Returns the
updated layers together with the trace of error vectors handed backward. -/
def backward_pass {σ : Type} :
    List (BLayer σ × List ℚ) → List ℚ → List ℚ → List (BLayer σ) × List (List ℚ)
  | [], _, _ => ([], [])
  | (layer, inputs_) :: rest, errors, outputs =>
    let prev_errors := layer.get_prev_errors layer.st errors outputs
    let st2 := layer.update layer.st inputs_ outputs errors
    let outputs2 := layer.get_outputs inputs_ outputs
    let r := backward_pass rest prev_errors outputs2
    ({ layer with st := st2 } :: r.1, prev_errors :: r.2)

/-- The same propagation with every layer state frozen: no update is ever
applied, every get_prev_errors sees the state from before the backward pass
began. -/
def backward_errors_frozen {σ : Type} :
    List (BLayer σ × List ℚ) → List ℚ → List ℚ → List (List ℚ)
  | [], _, _ => []
  | (layer, inputs_) :: rest, errors, outputs =>
    let prev_errors := layer.get_prev_errors layer.st errors outputs
    let outputs2 := layer.get_outputs inputs_ outputs
    prev_errors :: backward_errors_frozen rest prev_errors outputs2

structure Network (σ : Type) where
  layers : List (BLayer σ)
  iteration : ℕ

/-- Embeds Network.activate: feed the input through each layer in turn,
recording every intermediate value (index 0 is the raw input); returns the
trace self._activations together with the final output. -/
def network_activate {σ : Type} :
    List (BLayer σ) → List ℚ → List (List ℚ) × List ℚ
  | [], inputs => ([inputs], inputs)
  | layer :: rest, inputs =>
    let out := layer.activate layer.st inputs
    let r := network_activate rest out
    (inputs :: r.1, r.2)

/-- Embeds Network.update for calls whose target length matches the network
output arity (the source raises otherwise before doing anything): activate to
refresh the trace, set errors to targets - outputs, then run the backward
loop over the reversed layers paired with their recorded inputs; returns the
updated layers and the output error vector targets - outputs. -/
def network_update {σ : Type} (layers : List (BLayer σ))
    (inputs targets : List ℚ) : List (BLayer σ) × List ℚ :=
  let a := network_activate layers inputs
  let outputs := a.2
  let errors := List.zipWith (fun t o => t - o) targets outputs
  let rev_inputs := a.1.dropLast.reverse
  let b := backward_pass (layers.reverse.zip rev_inputs) errors outputs
  (b.1.reverse, errors)

/-- numpy.mean(errors ** 2): the per-pattern mean squared error accumulated
by Network.train. -/
def mse (errors : List ℚ) : ℚ :=
  (errors.map (fun t => t * t)).sum / (errors.length : ℚ)

/-- The inner loop of one epoch of Network.train: one network_update call per
selected pattern, accumulating the running error sum; also counts the update
calls made. -/
def run_epoch_go {σ : Type} :
    List (BLayer σ) → ℚ → ℕ → List (List ℚ × List ℚ) → List (BLayer σ) × ℚ × ℕ
  | ls, err, cnt, [] => (ls, err, cnt)
  | ls, err, cnt, p :: rest =>
    let u := network_update ls p.1 p.2
    run_epoch_go u.1 (err + mse u.2) (cnt + 1) rest

def run_epoch {σ : Type} (ls : List (BLayer σ))
    (selected : List (List ℚ × List ℚ)) : List (BLayer σ) × ℚ × ℕ :=
  run_epoch_go ls 0 0 selected

/-- Ghost recomputation of the per-pattern mean squared errors of one epoch,
as a list, threading the same network states as run_epoch_go. -/
def epoch_error_list {σ : Type} :
    List (BLayer σ) → List (List ℚ × List ℚ) → List ℚ
  | _, [] => []
  | ls, p :: rest =>
    let u := network_update ls p.1 p.2
    mse u.2 :: epoch_error_list u.1 rest

/-- Embeds self._reset_bookkeeping() followed by self.reset() at the top of
Network.train: the iteration counter returns to 0 and every layer is reset. -/
def network_reset {σ : Type} (net : Network σ) : Network σ :=
  { layers := net.layers.map (fun layer => { layer with st := layer.reset layer.st })
    iteration := 0 }

/-- The epoch loop of Network.train.  Each surviving iteration sets
self.iteration, runs one epoch over pattern_select_func(patterns), divides
the accumulated error by len(patterns) and logs it (the returned list is the
trace of logged epoch errors, one per epoch actually run); the loop returns
as soon as that epoch error is strictly below error_break, else continues to
the iteration cap. -/
def train_go {σ : Type} (patterns : List (List ℚ × List ℚ)) (error_break : ℚ)
    (psf : List (List ℚ × List ℚ) → List (List ℚ × List ℚ)) :
    Network σ → ℕ → ℕ → Network σ × List ℚ
  | net, _, 0 => (net, [])
  | net, i, Nat.succ rem =>
    let net1 : Network σ := { net with iteration := i }
    let r := run_epoch net1.layers (psf patterns)
    let net2 : Network σ := { net1 with layers := r.1 }
    let err := r.2.1 / (patterns.length : ℚ)
    if err < error_break then (net2, [err])
    else
      let t := train_go patterns error_break psf net2 (i + 1) rem
      (t.1, err :: t.2)

/-- Embeds Network.train with logging enabled (the default; the logging flag
only affects whether epoch errors are printed, never the control flow, since
the early break can only fire when the error is tracked): reset bookkeeping
and all layers, then run the epoch loop. -/
def network_train {σ : Type} (net : Network σ)
    (patterns : List (List ℚ × List ℚ)) (iterations : ℕ) (error_break : ℚ)
    (psf : List (List ℚ × List ℚ) → List (List ℚ × List ℚ)) :
    Network σ × List ℚ :=
  train_go patterns error_break psf (network_reset net) 0 iterations

/-! ## pynn/network.py: layer-sequence validation -/

/-- The value of the num_inputs / num_outputs attribute of a layer: the
string any, the Python default None (the base Layer class default, which the
concrete layers in pynn/transform.py and pynn/transfer.py never override), or
a fixed integer arity. -/
inductive NumVal where
  | vAny : NumVal
  | vNone : NumVal
  | vInt : ℕ → NumVal
deriving DecidableEq

structure VLayer where
  attributes : List String
  requires_prev : List String
  requires_next : List String
  num_inputs : NumVal
  num_outputs : NumVal
deriving DecidableEq

/-- Embeds _all_in from pynn/network.py. -/
def all_in (all_required values : List String) : Bool :=
  all_required.all (fun r => values.contains r)

/-- Embeds _validate_requires_next: the attributes of layer must contain
every tag in prev_layer.requires_next (else the source raises TypeError). -/
def validate_requires_next (prev_layer layer : VLayer) : Bool :=
  all_in prev_layer.requires_next layer.attributes

/-- Embeds _validate_requires_prev: the attributes of layer must contain
every tag in next_layer.requires_prev. -/
def validate_requires_prev (next_layer layer : VLayer) : Bool :=
  all_in next_layer.requires_prev layer.attributes

/-- Embeds the arity loop of _validate_layers_sequence, carrying last_num
exactly as the source does: when the next layer declares any inputs the pair
is skipped and last_num is unchanged; otherwise last_num becomes the current
layer num_outputs and the pair fails when that is not any and differs from
the next layer num_inputs. -/
def arity_loop : NumVal → List VLayer → Bool
  | _, [] => true
  | _, [_] => true
  | last_num, a :: b :: rest =>
    if b.num_inputs = NumVal.vAny then arity_loop last_num (b :: rest)
    else if a.num_outputs ≠ NumVal.vAny ∧ b.num_inputs ≠ a.num_outputs then false
    else arity_loop a.num_outputs (b :: rest)

/-- Embeds the requires_next loop of _validate_layers_sequence. -/
def requires_next_loop : List VLayer → Bool
  | a :: b :: rest => validate_requires_next a b && requires_next_loop (b :: rest)
  | _ => true

/-- Embeds the requires_prev loop of _validate_layers_sequence. -/
def requires_prev_loop : List VLayer → Bool
  | a :: b :: rest => validate_requires_prev b a && requires_prev_loop (b :: rest)
  | _ => true

/-- Embeds _validate_layers_sequence (num_inputs is the default any at the
Network.__init__ call site); true means no exception is raised. -/
def validate_layers_sequence (num_inputs : NumVal) (layers : List VLayer) : Bool :=
  arity_loop num_inputs layers && requires_next_loop layers && requires_prev_loop layers

/-- Embeds Network.__init__ up to its validation: construction returns a
network exactly when _validate_layers_sequence raises nothing. -/
def network_new (layers : List VLayer) : Option (List VLayer) :=
  if validate_layers_sequence NumVal.vAny layers then some layers else none

/-- The compatibility of one adjacent pair, as the claim states it: arities
agree unless either side declares any, the successor carries every tag the
predecessor requires next, and the predecessor carries every tag the
successor requires of what precedes it. -/
def compatible (a b : VLayer) : Prop :=
  (b.num_inputs = NumVal.vAny ∨ a.num_outputs = NumVal.vAny ∨ b.num_inputs = a.num_outputs) ∧
  (∀ t ∈ a.requires_next, t ∈ b.attributes) ∧
  (∀ t ∈ b.requires_prev, t ∈ a.attributes)

/-! ## pynn/validation.py: cross-validation splitting -/

/-- Embeds the loop of _split_dataset: iteration number num_sets - i is
passed as the last argument; every iteration but the final one takes a slice
of set_size items starting at start, the final one takes everything from
start on (Python 2 integer division gives the floor for set_size). -/
def split_go {α : Type} (patterns : List α) (set_size : ℕ) :
    ℕ → ℕ → List (List α)
  | _, 0 => []
  | start, 1 => [patterns.drop start]
  | start, Nat.succ (Nat.succ m) =>
    (patterns.drop start).take set_size ::
      split_go patterns set_size (start + set_size) (Nat.succ m)

/-- Embeds _split_dataset from pynn/validation.py. -/
def split_dataset {α : Type} (patterns : List α) (num_sets : ℕ) : List (List α) :=
  split_go patterns (patterns.length / num_sets) 0 num_sets

/-- Embeds the inner loop of _create_train_test_sets building one train set:
walk the folds in order, skipping only the fold at index i and concatenating
all others. -/
def train_concat {α : Type} : List (List α) → ℕ → List α
  | [], _ => []
  | _ :: rest, 0 => rest.flatten
  | s :: rest, Nat.succ i => s ++ train_concat rest i

/-- Embeds _create_train_test_sets from pynn/validation.py: one
(train, test) pair per fold index. -/
def create_train_test_sets {α : Type} (sets : List (List α)) :
    List (List α × List α) :=
  (List.range sets.length).map (fun i => (train_concat sets i, sets.getD i []))

/-! ## Helper lemmas -/

theorem zipWith_getD (f : ℚ → ℚ → ℚ) :
    ∀ (l1 l2 : List ℚ) (i : ℕ), i < l1.length → i < l2.length →
      (List.zipWith f l1 l2).getD i 0 = f (l1.getD i 0) (l2.getD i 0) := by
  intro l1
  induction l1 with
  | nil => intro l2 i h1 _; simp at h1
  | cons x t ih =>
    intro l2 i h1 h2
    cases l2 with
    | nil => simp at h2
    | cons y t2 =>
      cases i with
      | zero => simp [List.zipWith]
      | succ j =>
        simp only [List.zipWith, List.getD_cons_succ]
        exact ih t2 j (by simpa using h1) (by simpa using h2)

/-! ## C6: protvecdiv -/

/-- C6: for equal-length rational vectors, protvecdiv is total (never
raises), its component i is a_i / b_i when b_i is nonzero and exactly 0
when b_i is zero, and in particular protvecdiv [4,0,9] [2,0,3] = [2,0,3]. -/
theorem protvecdiv_spec (a b : List ℚ) (h : a.length = b.length) :
    (protvecdiv a b).length = a.length ∧
    (∀ i, i < a.length →
      (protvecdiv a b).getD i 0 =
        if b.getD i 0 = 0 then 0 else a.getD i 0 / b.getD i 0) ∧
    protvecdiv [4, 0, 9] [2, 0, 3] = [2, 0, 3] := by
  refine ⟨?_, ?_, ?_⟩
  · unfold protvecdiv
    split <;> simp [h]
  · intro i hi
    have hib : i < b.length := h ▸ hi
    unfold protvecdiv
    split
    · exact zipWith_getD _ a b i hi hib
    · rename_i hany
      have hb : b.getD i 0 ≠ 0 := by
        intro h0
        apply hany
        simp only [List.any_eq_true, decide_eq_true_eq]
        refine ⟨b.getD i 0, ?_, h0⟩
        rw [List.getD_eq_getElem b 0 hib]
        exact List.getElem_mem hib
      rw [zipWith_getD _ a b i hi hib, if_neg hb]
  · norm_num [protvecdiv]

/-- C6 witness: instantiation at the vectors named by the claim. -/
theorem protvecdiv_spec_witness :
    ([4, 0, 9] : List ℚ).length = ([2, 0, 3] : List ℚ).length ∧
    protvecdiv [4, 0, 9] [2, 0, 3] = [2, 0, 3] :=
  ⟨rfl, (protvecdiv_spec [4, 0, 9] [2, 0, 3] rfl).2.2⟩

/-! ## C7: softmax -/

theorem le_foldl_max : ∀ (t : List ℚ) (a : ℚ), a ≤ t.foldl max a := by
  intro t
  induction t with
  | nil => intro a; simp
  | cons b t ih =>
    intro a
    simp only [List.foldl]
    exact le_trans (le_max_left a b) (ih (max a b))

theorem mem_le_foldl_max : ∀ (t : List ℚ) (a v : ℚ), v ∈ t → v ≤ t.foldl max a := by
  intro t
  induction t with
  | nil => intro a v h; simp at h
  | cons b t ih =>
    intro a v h
    rcases List.mem_cons.mp h with h1 | h2
    · subst h1
      simp only [List.foldl]
      exact le_trans (le_max_right a v) (le_foldl_max t (max a v))
    · exact ih (max a b) v h2

theorem mem_le_maxList (x : List ℚ) (v : ℚ) (h : v ∈ x) : v ≤ maxList x := by
  cases x with
  | nil => simp at h
  | cons a t =>
    rcases List.mem_cons.mp h with h1 | h2
    · subst h1; exact le_foldl_max t v
    · exact mem_le_foldl_max t a v h2

theorem sum_pos_of_mem_pos : ∀ (l : List ℚ), (∀ y ∈ l, 0 < y) → l ≠ [] → 0 < l.sum := by
  intro l
  induction l with
  | nil => intro _ h; exact absurd rfl h
  | cons a t ih =>
    intro hp _
    have ha := hp a (by simp)
    rcases eq_or_ne t [] with ht | ht
    · subst ht; simpa using ha
    · have := ih (fun y hy => hp y (List.mem_cons_of_mem a hy)) ht
      simp only [List.sum_cons]
      linarith

theorem sum_map_div (l : List ℚ) (s : ℚ) : (l.map (fun v => v / s)).sum = l.sum / s := by
  induction l with
  | nil => simp
  | cons a t ih => simp [ih, add_div]

/-- C7: softmax subtracts the maximum component before applying exp, so every
argument handed to exp is nonpositive and no overflow can occur; given any
exponential that is positive on nonpositive arguments, every softmax output
on a nonempty vector is a well-defined positive rational (no NaN or Inf) and
the outputs sum to exactly 1, and softmax [1000, 1000, 1000] evaluates to
[1/3, 1/3, 1/3]. -/
theorem softmax_spec (e : ℚ → ℚ) (hpos : ∀ v, v ≤ 0 → 0 < e v) :
    (∀ x, x ≠ [] → (softmaxWith e x).sum = 1 ∧ ∀ y ∈ softmaxWith e x, 0 < y) ∧
    softmaxWith e [1000, 1000, 1000] = [1/3, 1/3, 1/3] := by
  have main : ∀ x : List ℚ, x ≠ [] →
      (softmaxWith e x).sum = 1 ∧ ∀ y ∈ softmaxWith e x, 0 < y := by
    intro x hx
    have hexpos : ∀ y ∈ x.map (fun v => e (v - maxList x)), 0 < y := by
      intro y hy
      rcases List.mem_map.mp hy with ⟨v, hv, rfl⟩
      have := mem_le_maxList x v hv
      exact hpos _ (by linarith)
    have hexne : x.map (fun v => e (v - maxList x)) ≠ [] := by
      intro h
      exact hx (List.map_eq_nil_iff.mp h)
    have hsum : 0 < (x.map (fun v => e (v - maxList x))).sum :=
      sum_pos_of_mem_pos _ hexpos hexne
    constructor
    · show ((x.map (fun v => e (v - maxList x))).map
        (fun v => v / (x.map (fun w => e (w - maxList x))).sum)).sum = 1
      rw [sum_map_div]
      exact div_self (ne_of_gt hsum)
    · intro y hy
      simp only [softmaxWith] at hy
      rcases List.mem_map.mp hy with ⟨w, hw, rfl⟩
      exact div_pos (hexpos w hw) hsum
  refine ⟨main, ?_⟩
  have h0 : (0:ℚ) < e 0 := hpos 0 le_rfl
  have hne : e 0 ≠ 0 := ne_of_gt h0
  simp only [softmaxWith, maxList, List.foldl, List.map, List.sum_cons, List.sum_nil]
  norm_num
  field_simp
  ring

/-- C7 witness: with the constant exponential 1 (positive on nonpositive
arguments), softmax of the all-1000 vector is [1/3, 1/3, 1/3]. -/
theorem softmax_spec_witness :
    softmaxWith (fun _ => 1) [1000, 1000, 1000] = [1/3, 1/3, 1/3] :=
  (softmax_spec (fun _ => 1) (fun _ _ => by norm_num)).2

/-! ## C8: relu (softplus) -/

theorem relu_getD (e : ℚ → Option ℚ) (lg : ℚ → ℚ) :
    ∀ (x : List ℚ) (i : ℕ), i < x.length →
      (relu e lg x).getD i 0 =
        ((e (x.getD i 0)).map (fun w => lg (1 + w))).getD (x.getD i 0) := by
  intro x
  induction x with
  | nil => intro i h; simp at h
  | cons a t ih =>
    intro i h
    cases i with
    | zero => simp [relu]
    | succ j =>
      have hstep : (relu e lg (a :: t)).getD (j + 1) 0 = (relu e lg t).getD j 0 := by
        simp [relu]
      rw [hstep, List.getD_cons_succ]
      exact ih j (by simpa using h)

/-- C8: for every component where the modelled exp overflows (e returns
none, so log(1 + exp x) is infinite), relu returns the input component
itself; on every other component it returns the modelled ln(1 + exp x);
lengths are preserved. -/
theorem relu_spec (e : ℚ → Option ℚ) (lg : ℚ → ℚ) (x : List ℚ) :
    (relu e lg x).length = x.length ∧
    ∀ i, i < x.length →
      ((e (x.getD i 0) = none → (relu e lg x).getD i 0 = x.getD i 0) ∧
       (∀ w, e (x.getD i 0) = some w → (relu e lg x).getD i 0 = lg (1 + w))) := by
  constructor
  · simp [relu]
  · intro i hi
    constructor
    · intro hnone
      rw [relu_getD e lg x i hi, hnone]
      rfl
    · intro w hw
      rw [relu_getD e lg x i hi, hw]
      rfl

/-- C8 witness: with an exp model that overflows above 700, relu at the
overflowing input 1000 returns 1000 itself, a finite value. -/
theorem relu_spec_witness :
    (relu (fun v : ℚ => if 700 < v then none else some v) (fun v => v) [1000]).getD 0 0
      = 1000 := by
  have h := (relu_spec (fun v : ℚ => if 700 < v then none else some v)
    (fun v => v) [1000]).2 0 (by norm_num)
  have h2 := h.1 (by norm_num)
  simpa using h2

/-! ## C5: RBF.activate similarity scaling -/

/-- C5 counterexample: at an input where every gaussian similarity has
underflowed to exactly zero, RBF.activate with scaling enabled produces a
non-finite component (none), not the 0 that the safe division convention of
protvecdiv (shown alongside) would give: the source divides with plain
numpy division, not with the safe primitive. -/
theorem rbf_activate_zero_sum_counterexample :
    rbf_activate (fun _ => [1]) (fun _ => 0) (fun _ => [1]) true [0] = [none] ∧
    protvecdiv [1] [0] = [0] ∧
    (none : Option ℚ) ≠ some 0 := by
  refine ⟨?_, ?_, by simp⟩
  · norm_num [rbf_activate, np_div]
  · norm_num [protvecdiv]

/-- C5 (amended): with scale_by_similarity enabled, RBF.activate returns the
output-stage result divided elementwise by the sum of the gaussian
similarities using plain numpy division; when that sum is nonzero every
component is the exact quotient, and when the sum is zero every component is
non-finite (inf or nan, modelled none) rather than the 0 of the safe
division primitive. -/
theorem rbf_activate_scaling (som_act : List ℚ → List ℚ) (g : ℚ → ℚ)
    (perc_act : List ℚ → List ℚ) (inputs : List ℚ) :
    (((som_act inputs).map g).sum ≠ 0 →
      rbf_activate som_act g perc_act true inputs =
        (perc_act ((som_act inputs).map g)).map
          (fun o => some (o / ((som_act inputs).map g).sum))) ∧
    (((som_act inputs).map g).sum = 0 →
      rbf_activate som_act g perc_act true inputs =
        (perc_act ((som_act inputs).map g)).map (fun _ => none)) := by
  constructor
  · intro h
    simp [rbf_activate, np_div, h]
  · intro h
    simp [rbf_activate, np_div, h]

/-- C5 witness: a nonzero similarity sum divides every output component. -/
theorem rbf_activate_scaling_witness :
    rbf_activate (fun _ => [2]) (fun _ => 1) (fun _ => [5]) true [0] = [some 5] := by
  have h := (rbf_activate_scaling (fun _ => [2]) (fun _ => 1) (fun _ => [5]) [0]).1
    (by norm_num)
  rw [h]
  norm_num

/-! ## C4: Perceptron.reset -/

/-- C4 counterexample: construct a 1 x 1 Perceptron (learn rate 1/2,
momentum rate 1/10, weight range 1/4, RNG draw 0), update it once on inputs
[1] and deltas [1] (making the momentum buffer [[1]]), then reset it; the
momentum buffer of the reset layer differs from the zero momentum buffer of
a freshly constructed layer, so reset does not return the layer to the state
of a fresh construction. -/
theorem perceptron_reset_counterexample :
    (perceptron_reset
        (perceptron_update (perceptron_new 1 1 false (1/2) (1/10) (1/4) [[0]]) [1] [1])
        [[0]]).momentums ≠
      (perceptron_new 1 1 false (1/2) (1/10) (1/4) [[0]]).momentums := by
  norm_num [perceptron_new, perceptron_reset, perceptron_update, outer, mat_add,
    mat_scale, zeros_matrix]

/-- C4 (amended): Perceptron.reset redraws the weights within the configured
initial range (entries of the fresh random matrix lie in [0, 1], so every new
weight lies in [-initial_weights_range, initial_weights_range]) and preserves
the weight-matrix shape (that of the RNG draw, which has shape self._size)
and all topology fields, but it leaves the momentum buffer exactly as it was:
the training-only accumulator is not reinitialized. -/
theorem perceptron_reset_spec (p : Perceptron) (rand : List (List ℚ))
    (hr : ∀ row ∈ rand, ∀ v ∈ row, 0 ≤ v ∧ v ≤ 1)
    (hrange : 0 ≤ p.initial_weights_range) :
    (perceptron_reset p rand).momentums = p.momentums ∧
    (perceptron_reset p rand).size = p.size ∧
    (perceptron_reset p rand).bias = p.bias ∧
    (perceptron_reset p rand).learn_rate = p.learn_rate ∧
    (perceptron_reset p rand).momentum_rate = p.momentum_rate ∧
    (perceptron_reset p rand).initial_weights_range = p.initial_weights_range ∧
    (perceptron_reset p rand).weights.length = rand.length ∧
    (∀ i : ℕ, ((perceptron_reset p rand).weights.getD i []).length = (rand.getD i []).length) ∧
    (∀ row ∈ (perceptron_reset p rand).weights, ∀ w ∈ row,
      -p.initial_weights_range ≤ w ∧ w ≤ p.initial_weights_range) := by
  refine ⟨rfl, rfl, rfl, rfl, rfl, rfl, by simp [perceptron_reset], ?_, ?_⟩
  · intro i
    simp only [perceptron_reset]
    rcases lt_or_ge i rand.length with hi | hi
    · rw [List.getD_eq_getElem _ _ (by simpa using hi), List.getD_eq_getElem _ _ hi]
      simp
    · rw [List.getD_eq_default _ _ (by simpa using hi), List.getD_eq_default _ _ hi]
  · intro row hrow w hw
    simp only [perceptron_reset, List.mem_map] at hrow
    rcases hrow with ⟨row0, hrow0, rfl⟩
    rcases List.mem_map.mp hw with ⟨v, hv, rfl⟩
    rcases hr row0 hrow0 v hv with ⟨h0, h1⟩
    constructor <;> nlinarith

/-- C4 witness: resetting a concrete perceptron with momentum buffer [[3]]
leaves that buffer untouched. -/
theorem perceptron_reset_spec_witness :
    (perceptron_reset
        { learn_rate := 1/2, momentum_rate := 1/10, initial_weights_range := 1/4,
          bias := false, size := (1, 1), weights := [[7]], momentums := [[3]] }
        [[1/2]]).momentums = [[3]] :=
  (perceptron_reset_spec _ [[1/2]]
    (by intro row hrow v hv; simp at hrow; subst hrow; simp at hv; subst hv; norm_num)
    (by norm_num)).1

/-! ## C9: cross-validation splitting -/

theorem split_go_length {α : Type} (p : List α) (s : ℕ) :
    ∀ (n start : ℕ), (split_go p s start n).length = n := by
  intro n
  induction n with
  | zero => intro start; rfl
  | succ m ih =>
    intro start
    cases m with
    | zero => rfl
    | succ j =>
      simp only [split_go, List.length_cons]
      rw [ih (start + s)]

theorem split_go_flatten {α : Type} (p : List α) (s : ℕ) :
    ∀ (n start : ℕ), 1 ≤ n → (split_go p s start n).flatten = p.drop start := by
  intro n
  induction n with
  | zero => intro start h; omega
  | succ m ih =>
    intro start _
    cases m with
    | zero => simp [split_go]
    | succ j =>
      simp only [split_go, List.flatten_cons]
      rw [ih (start + s) (by omega)]
      rw [← List.drop_drop]
      exact List.take_append_drop s (p.drop start)

theorem train_concat_eq {α : Type} :
    ∀ (sets : List (List α)) (i : ℕ), train_concat sets i = (sets.eraseIdx i).flatten := by
  intro sets
  induction sets with
  | nil => intro i; cases i <;> rfl
  | cons s rest ih =>
    intro i
    cases i with
    | zero => rfl
    | succ j =>
      simp only [train_concat, List.eraseIdx, List.flatten_cons]
      rw [ih j]

theorem range_map_getD {α : Type} (n : ℕ) (f : ℕ → α) (d : α) (i : ℕ) (h : i < n) :
    (((List.range n).map f).getD i d) = f i := by
  rw [List.getD_eq_getElem _ _ (by simpa using h)]
  simp

/-- C9: for a pattern list of length N and a fold count k with 1 <= k <= N,
_split_dataset yields exactly k folds whose in-order concatenation is the
original pattern list (so the test sets are pairwise disjoint index ranges
covering all N patterns), and _create_train_test_sets pairs each fold, as the
test set, with the concatenation of all the other folds as the training
set. -/
theorem cross_validation_split_spec {α : Type} (patterns : List α) (k : ℕ)
    (h1 : 1 ≤ k) (h2 : k ≤ patterns.length) :
    (split_dataset patterns k).length = k ∧
    (split_dataset patterns k).flatten = patterns ∧
    (create_train_test_sets (split_dataset patterns k)).length = k ∧
    (∀ i, i < k →
      (create_train_test_sets (split_dataset patterns k)).getD i ([], []) =
        (((split_dataset patterns k).eraseIdx i).flatten,
         (split_dataset patterns k).getD i [])) := by
  have hlen : (split_dataset patterns k).length = k := split_go_length _ _ k 0
  refine ⟨hlen, ?_, ?_, ?_⟩
  · have := split_go_flatten patterns (patterns.length / k) k 0 h1
    simpa [split_dataset] using this
  · simp [create_train_test_sets, hlen]
  · intro i hi
    unfold create_train_test_sets
    rw [hlen, range_map_getD k _ _ i hi, train_concat_eq]

/-- C9 witness: five patterns in two folds give a first fold of floor(5/2)
patterns and a final fold with the remainder; the folds concatenate back to
the full list and each train set is the complement of its test set. -/
theorem cross_validation_split_spec_witness :
    (1 ≤ 2 ∧ 2 ≤ ([10, 20, 30, 40, 50] : List ℕ).length) ∧
    (split_dataset ([10, 20, 30, 40, 50] : List ℕ) 2).flatten = [10, 20, 30, 40, 50] ∧
    (split_dataset ([10, 20, 30, 40, 50] : List ℕ) 2) = [[10, 20], [30, 40, 50]] ∧
    create_train_test_sets (split_dataset ([10, 20, 30, 40, 50] : List ℕ) 2) =
      [([30, 40, 50], [10, 20]), ([10, 20], [30, 40, 50])] := by
  refine ⟨⟨by norm_num, by norm_num⟩, ?_, by decide, by decide⟩
  exact (cross_validation_split_spec [10, 20, 30, 40, 50] 2 (by norm_num) (by norm_num)).2.1

/-! ## C2: Network construction validation -/

/-- The arity condition of one adjacent pair: the successor declares any
inputs, or the predecessor declares any outputs, or the two agree. -/
def arity_ok (a b : VLayer) : Prop :=
  b.num_inputs = NumVal.vAny ∨ a.num_outputs = NumVal.vAny ∨ b.num_inputs = a.num_outputs

theorem arity_loop_iff : ∀ (layers : List VLayer) (l : NumVal),
    arity_loop l layers = true ↔ List.Chain' arity_ok layers := by
  intro layers
  induction layers with
  | nil => intro l; simp [arity_loop]
  | cons a t ih =>
    intro l
    cases t with
    | nil => simp [arity_loop]
    | cons b rest =>
      rw [List.chain'_cons]
      by_cases hb : b.num_inputs = NumVal.vAny
      · rw [show arity_loop l (a :: b :: rest) = arity_loop l (b :: rest) by
          simp [arity_loop, hb]]
        rw [ih l]
        have : arity_ok a b := Or.inl hb
        tauto
      · by_cases hc : a.num_outputs ≠ NumVal.vAny ∧ b.num_inputs ≠ a.num_outputs
        · rw [show arity_loop l (a :: b :: rest) = false by
            simp [arity_loop, hb, hc.1, hc.2]]
          have : ¬ arity_ok a b := by
            intro h
            rcases h with h | h | h
            · exact hb h
            · exact hc.1 h
            · exact hc.2 h
          simp [this]
        · rw [show arity_loop l (a :: b :: rest) = arity_loop a.num_outputs (b :: rest) by
            simp only [arity_loop, if_neg hb, if_neg hc]]
          rw [ih a.num_outputs]
          have : arity_ok a b := by
            unfold arity_ok
            rcases not_and_or.mp hc with h | h
            · exact Or.inr (Or.inl (not_not.mp h))
            · exact Or.inr (Or.inr (not_not.mp h))
          tauto

theorem all_in_iff (xs ys : List String) : all_in xs ys = true ↔ ∀ t ∈ xs, t ∈ ys := by
  simp [all_in, List.all_eq_true]

theorem requires_next_loop_iff : ∀ (layers : List VLayer),
    requires_next_loop layers = true ↔
      List.Chain' (fun a b => ∀ t ∈ a.requires_next, t ∈ b.attributes) layers := by
  intro layers
  induction layers with
  | nil => simp [requires_next_loop]
  | cons a t ih =>
    cases t with
    | nil => simp [requires_next_loop]
    | cons b rest =>
      rw [List.chain'_cons]
      simp only [requires_next_loop, Bool.and_eq_true]
      rw [ih, validate_requires_next, all_in_iff]

theorem requires_prev_loop_iff : ∀ (layers : List VLayer),
    requires_prev_loop layers = true ↔
      List.Chain' (fun a b => ∀ t ∈ b.requires_prev, t ∈ a.attributes) layers := by
  intro layers
  induction layers with
  | nil => simp [requires_prev_loop]
  | cons a t ih =>
    cases t with
    | nil => simp [requires_prev_loop]
    | cons b rest =>
      rw [List.chain'_cons]
      simp only [requires_prev_loop, Bool.and_eq_true]
      rw [ih, validate_requires_prev, all_in_iff]

theorem chain'_and3 (R1 R2 R3 : VLayer → VLayer → Prop) : ∀ (l : List VLayer),
    (List.Chain' R1 l ∧ List.Chain' R2 l ∧ List.Chain' R3 l) ↔
      List.Chain' (fun a b => R1 a b ∧ R2 a b ∧ R3 a b) l := by
  intro l
  induction l with
  | nil => simp
  | cons a t ih =>
    cases t with
    | nil => simp
    | cons b rest =>
      simp only [List.chain'_cons] at *
      constructor
      · rintro ⟨⟨r1, c1⟩, ⟨r2, c2⟩, r3, c3⟩
        exact ⟨⟨r1, r2, r3⟩, ih.mp ⟨c1, c2, c3⟩⟩
      · rintro ⟨⟨r1, r2, r3⟩, c⟩
        have h := ih.mpr c
        exact ⟨⟨r1, h.1⟩, ⟨r2, h.2.1⟩, r3, h.2.2⟩

/-- C2: Network construction succeeds (raises nothing) if and only if every
adjacent pair of layers is compatible: arities agree unless either side is
any, the successor declares every tag in the requires_next of its
predecessor, and the predecessor declares every tag in the requires_prev of
its successor; any single incompatible pair makes construction fail, before
any activation or training is possible. -/
theorem network_new_iff (layers : List VLayer) :
    (network_new layers).isSome ↔ List.Chain' compatible layers := by
  have hsome : (network_new layers).isSome = validate_layers_sequence NumVal.vAny layers := by
    unfold network_new
    split <;> simp_all
  rw [hsome]
  unfold validate_layers_sequence
  simp only [Bool.and_eq_true]
  rw [and_assoc, arity_loop_iff, requires_next_loop_iff, requires_prev_loop_iff]
  exact chain'_and3 _ _ _ layers

/-- C2 witness: a concrete compatible pair (matching arity 3 and a satisfied
requires_next tag) constructs successfully. -/
theorem network_new_iff_witness :
    (network_new
      [{ attributes := ["supportsGrowing"], requires_prev := [], requires_next := ["supportsGrowing"],
         num_inputs := NumVal.vInt 2, num_outputs := NumVal.vInt 3 },
       { attributes := ["supportsGrowing"], requires_prev := [], requires_next := [],
         num_inputs := NumVal.vInt 3, num_outputs := NumVal.vInt 1 }]).isSome := by
  apply (network_new_iff _).mpr
  refine List.chain'_cons.mpr ⟨?_, List.chain'_singleton _⟩
  refine ⟨Or.inr (Or.inr rfl), ?_, ?_⟩ <;> simp

/-! ## C1, C3, C10: Network.update ordering and Network.train -/

/-- C1: in the backward loop of Network.update, the error vector handed to
each predecessor is computed by get_prev_errors on the layer state from
before that layer update mutates it; therefore the whole trace of propagated
errors coincides with the trace computed with every layer state frozen at
its pre-update value (backward_errors_frozen applies no update at all).  Had
the source called layer.update before layer.get_prev_errors, the trace would
be computed from mutated states and this equality would fail. -/
theorem backward_pass_frozen_trace {σ : Type} (L : List (BLayer σ × List ℚ))
    (errors outputs : List ℚ) :
    (backward_pass L errors outputs).2 = backward_errors_frozen L errors outputs := by
  induction L generalizing errors outputs with
  | nil => rfl
  | cons p rest ih =>
    obtain ⟨layer, inputs_⟩ := p
    simp only [backward_pass, backward_errors_frozen]
    rw [ih]

theorem run_epoch_go_count {σ : Type} :
    ∀ (sel : List (List ℚ × List ℚ)) (ls : List (BLayer σ)) (e : ℚ) (c : ℕ),
      (run_epoch_go ls e c sel).2.2 = c + sel.length := by
  intro sel
  induction sel with
  | nil => intro ls e c; simp [run_epoch_go]
  | cons p rest ih =>
    intro ls e c
    simp only [run_epoch_go]
    rw [ih]
    simp only [List.length_cons]
    omega

theorem run_epoch_go_err {σ : Type} :
    ∀ (sel : List (List ℚ × List ℚ)) (ls : List (BLayer σ)) (e : ℚ) (c : ℕ),
      (run_epoch_go ls e c sel).2.1 = e + (epoch_error_list ls sel).sum := by
  intro sel
  induction sel with
  | nil => intro ls e c; simp [run_epoch_go, epoch_error_list]
  | cons p rest ih =>
    intro ls e c
    simp only [run_epoch_go, epoch_error_list, List.sum_cons]
    rw [ih]
    ring

theorem train_go_props {σ : Type} (patterns : List (List ℚ × List ℚ)) (eb : ℚ)
    (psf : List (List ℚ × List ℚ) → List (List ℚ × List ℚ)) :
    ∀ (rem i : ℕ) (net : Network σ),
      (train_go patterns eb psf net i rem).2.length ≤ rem ∧
      (∀ j, j + 1 < (train_go patterns eb psf net i rem).2.length →
        ¬ ((train_go patterns eb psf net i rem).2.getD j 0 < eb)) ∧
      ((train_go patterns eb psf net i rem).2.length < rem →
        ∃ e, (train_go patterns eb psf net i rem).2.getLast? = some e ∧ e < eb) ∧
      ((∀ e ∈ (train_go patterns eb psf net i rem).2, ¬ e < eb) →
        (train_go patterns eb psf net i rem).2.length = rem) := by
  intro rem
  induction rem with
  | zero =>
    intro i net
    simp [train_go]
  | succ m ih =>
    intro i net
    simp only [train_go]
    by_cases hbr : (run_epoch net.layers (psf patterns)).2.1 / (patterns.length : ℚ) < eb
    · rw [if_pos hbr]
      refine ⟨by simp, ?_, ?_, ?_⟩
      · intro j hj
        simp at hj
      · intro _
        exact ⟨_, rfl, hbr⟩
      · intro hall
        exact absurd hbr (hall _ (by simp))
    · rw [if_neg hbr]
      obtain ⟨ihlen, ihmid, ihlast, ihall⟩ := ih (i + 1)
        { iteration := i, layers := (run_epoch net.layers (psf patterns)).1 }
      refine ⟨by simpa using Nat.succ_le_succ ihlen, ?_, ?_, ?_⟩
      · intro j hj
        cases j with
        | zero => simpa using hbr
        | succ k =>
          rw [List.getD_cons_succ]
          exact ihmid k (by simpa using hj)
      · intro hlt
        have hlt2 : (train_go patterns eb psf
            { iteration := i, layers := (run_epoch net.layers (psf patterns)).1 }
            (i + 1) m).2.length < m := by
          simpa using hlt
        obtain ⟨e, he, helt⟩ := ihlast hlt2
        refine ⟨e, ?_, helt⟩
        cases htl : (train_go patterns eb psf
            { iteration := i, layers := (run_epoch net.layers (psf patterns)).1 }
            (i + 1) m).2 with
        | nil => rw [htl] at he; simp at he
        | cons x xs =>
          rw [htl] at he
          rw [List.getLast?_cons_cons]
          exact he
      · intro hall
        have hbody := ihall (fun e he => hall e (List.mem_cons_of_mem _ he))
        simp only [List.length_cons, hbody]

theorem train_go_head {σ : Type} (patterns : List (List ℚ × List ℚ)) (eb : ℚ)
    (psf : List (List ℚ × List ℚ) → List (List ℚ × List ℚ))
    (net : Network σ) (i m : ℕ) :
    (train_go patterns eb psf net i (m + 1)).2.headD 0 =
      (run_epoch net.layers (psf patterns)).2.1 / (patterns.length : ℚ) := by
  simp only [train_go]
  split <;> simp

/-- C3: Network.train first resets the iteration counter to 0 and every
layer (with zero iterations it does nothing else), then runs at most
iterations epochs, each performing exactly one update call per pattern
selected by pattern_select_func; it stops immediately after the first epoch
whose logged error falls below error_break (all earlier epochs are at or
above it, and an early stop can only happen with the last logged epoch below
the threshold), and if no epoch error falls below error_break, all
iterations epochs run. -/
theorem network_train_spec {σ : Type} (net : Network σ)
    (patterns : List (List ℚ × List ℚ)) (iterations : ℕ) (error_break : ℚ)
    (psf : List (List ℚ × List ℚ) → List (List ℚ × List ℚ)) :
    network_train net patterns 0 error_break psf = (network_reset net, []) ∧
    (network_train net patterns iterations error_break psf).2.length ≤ iterations ∧
    (∀ j, j + 1 < (network_train net patterns iterations error_break psf).2.length →
      ¬ ((network_train net patterns iterations error_break psf).2.getD j 0 < error_break)) ∧
    ((network_train net patterns iterations error_break psf).2.length < iterations →
      ∃ e, (network_train net patterns iterations error_break psf).2.getLast? = some e ∧
        e < error_break) ∧
    ((∀ e ∈ (network_train net patterns iterations error_break psf).2, ¬ e < error_break) →
      (network_train net patterns iterations error_break psf).2.length = iterations) ∧
    (∀ ls : List (BLayer σ), (run_epoch ls (psf patterns)).2.2 = (psf patterns).length) := by
  have h := train_go_props patterns error_break psf iterations 0 (network_reset net)
  exact ⟨rfl, h.1, h.2.1, h.2.2.1, h.2.2.2, fun ls => by
    simpa using run_epoch_go_count (psf patterns) ls 0 0⟩

/-- C10: the first epoch error that Network.train logs and compares against
error_break is the sum of the per-pattern mean squared errors over the
patterns returned by pattern_select_func, divided by len(patterns), the size
of the full training set; whenever the selection has a different (nonzero)
size and the error sum is nonzero, this differs from the mean over the
patterns actually trained on. -/
theorem train_error_denominator {σ : Type} (net : Network σ)
    (patterns : List (List ℚ × List ℚ)) (iterations : ℕ) (eb : ℚ)
    (psf : List (List ℚ × List ℚ) → List (List ℚ × List ℚ))
    (hit : 1 ≤ iterations) :
    (network_train net patterns iterations eb psf).2.headD 0 =
      (epoch_error_list (network_reset net).layers (psf patterns)).sum / (patterns.length : ℚ) ∧
    ((epoch_error_list (network_reset net).layers (psf patterns)).sum ≠ 0 →
      (psf patterns).length ≠ patterns.length →
      (psf patterns).length ≠ 0 →
      (network_train net patterns iterations eb psf).2.headD 0 ≠
        (epoch_error_list (network_reset net).layers (psf patterns)).sum /
          ((psf patterns).length : ℚ)) := by
  obtain ⟨m, rfl⟩ : ∃ m, iterations = m + 1 := ⟨iterations - 1, by omega⟩
  have hhead : (network_train net patterns (m + 1) eb psf).2.headD 0 =
      (run_epoch (network_reset net).layers (psf patterns)).2.1 / (patterns.length : ℚ) :=
    train_go_head patterns eb psf (network_reset net) 0 m
  have herr : (run_epoch (network_reset net).layers (psf patterns)).2.1 =
      (epoch_error_list (network_reset net).layers (psf patterns)).sum := by
    simpa using run_epoch_go_err (psf patterns) (network_reset net).layers 0 0
  constructor
  · rw [hhead, herr]
  · intro hs hne hnz
    rw [hhead, herr]
    intro hcontra
    rcases Nat.eq_zero_or_pos patterns.length with hN0 | hNpos
    · rw [hN0] at hcontra
      simp only [Nat.cast_zero, div_zero] at hcontra
      exact (div_ne_zero hs (Nat.cast_ne_zero.mpr hnz)) hcontra.symm
    · have hNne : (patterns.length : ℚ) ≠ 0 := Nat.cast_ne_zero.mpr (by omega)
      have hMne : ((psf patterns).length : ℚ) ≠ 0 := Nat.cast_ne_zero.mpr hnz
      rw [div_eq_div_iff hNne hMne] at hcontra
      have hcast : ((psf patterns).length : ℚ) = (patterns.length : ℚ) :=
        mul_left_cancel₀ hs hcontra
      exact hne (Nat.cast_injective hcast)

/-- C10 witness: an empty-layer network (outputs equal inputs) on two
patterns with a selection function keeping only the first: the single
selected pattern has mean squared error 4, and the logged epoch error is
4 / 2 = 2 (divided by the full training-set size), not 4 / 1 = 4. -/
theorem train_error_denominator_witness :
    (network_train { layers := ([] : List (BLayer Unit)), iteration := 0 }
        [([0], [2]), ([0], [0])] 1 0 (fun l => l.take 1)).2.headD 0 = 2 := by
  have h := (train_error_denominator { layers := ([] : List (BLayer Unit)), iteration := 0 }
      [([0], [2]), ([0], [0])] 1 0 (fun l => l.take 1) (by norm_num)).1
  rw [h]
  norm_num [network_reset, epoch_error_list, network_update, network_activate, mse,
    backward_pass]

end PynnProof

